import Mathlib

/-!
Zebra-Scent: schedule data model and web-UI rule editor

A shallow embedding of `src/Zebra_Scent/AppConfig.h` (the firmware's
`ScheduleRule` record and `MAX_RULES`) and of the script block of
`src/Zebra_Scent/WebUi.cpp` (the rule editor, the time-of-day and weekday
text helpers, the channel cards and the aggregate status line).

Conventions of the embedding:

* a JavaScript string is a `List Char`;
* a JavaScript number that the modelled code only ever uses as an integer is
  a `Nat` or an `Int`; `NaN` (the only non-integer that `parseInt` can
  return) is `none`;
* a JavaScript array is a `List`; `rules[i]` out of range (`undefined`) is
  `none`;
* the DOM is replaced by the values the functions write into it.
-/

namespace ZebraScent

set_option autoImplicit false

/-! ## AppConfig.h -/

/-- `inline constexpr uint8_t MAX_RULES = 16;` -/
def MAX_RULES : Nat := 16

/-- `struct ScheduleRule` of AppConfig.h, with its default member initialisers. -/
structure ScheduleRule where
  enabled : Bool := false
  channel : Nat := 1
  startMin : Nat := 0
  endMin : Nat := 0
  daysMask : Nat := 0x7F
  deriving DecidableEq, Repr

/-! ## WebUi.cpp: rule records of the editor -/

/-- A rule object of the UI script: `{en, ch, s, e, d}`. -/
structure UiRule where
  en : Bool
  ch : Nat
  s : Int
  e : Int
  d : Nat
  deriving DecidableEq, Repr

/-- The object literal `{en:false,ch:1,s:0,e:0,d:0x7F}` of `saveAllSchedules`. -/
def fillerRule : UiRule := { en := false, ch := 1, s := 0, e := 0, d := 0x7F }

/-- The object literal `{en:true,ch:1,s:8*60,e:9*60,d:0x7F}` of `addRule`. -/
def newRule : UiRule := { en := true, ch := 1, s := 8 * 60, e := 9 * 60, d := 0x7F }

/-- Outcome of `addRule`: the rule list afterwards and the alert shown, if any. -/
structure AddResult where
  rules : List UiRule
  alert : Option String
  deriving DecidableEq, Repr

/-- `function addRule(){if(rules.length>=16){alert("Max 16 Regeln");return;}
rules.push({...});renderSchedules();}` -/
def addRule (rules : List UiRule) : AddResult :=
  if rules.length ≥ 16 then
    { rules := rules, alert := some "Max 16 Regeln" }
  else
    { rules := rules ++ [newRule], alert := none }

/-- `function delRule(idx){rules.splice(idx,1);renderSchedules();}` -/
def delRule (rules : List UiRule) (idx : Nat) : List UiRule :=
  rules.eraseIdx idx

/-- `Array.from({length:16},(_,i)=>rules[i]||{en:false,ch:1,s:0,e:0,d:0x7F})`:
the array that `saveAllSchedules` posts. A rule object is truthy, so `||`
takes the filler exactly where `rules[i]` is `undefined`. -/
def saveAllSchedules (rules : List UiRule) : List UiRule :=
  (List.range 16).map (fun i => (rules.get? i).getD fillerRule)

/-- Loop condition of `reloadSchedules`:
`rules.length && !rules[rules.length-1].en && rules.length>1`. -/
def popCond (rules : List UiRule) : Bool :=
  rules.length != 0 && (match rules.getLast? with
    | some r => !r.en
    | none => false) && decide (rules.length > 1)

/-- The `while(...) rules.pop();` loop of `reloadSchedules`, with a bound on
the number of iterations. -/
def popLoop : Nat → List UiRule → List UiRule
  | 0, rules => rules
  | fuel + 1, rules => if popCond rules then popLoop fuel rules.dropLast else rules

/-- `rules=(s.rules||[]).slice(0,16); while(...) rules.pop();` of
`reloadSchedules`; `received` is `s.rules` (`none` when the field is absent).
Every iteration removes one element, so `rules.length` iterations suffice. -/
def reloadSchedules (received : Option (List UiRule)) : List UiRule :=
  let rules := (received.getD []).take 16
  popLoop rules.length rules

/-! ## WebUi.cpp: channel cards and aggregate status -/

/-- `function bitOn(mask,idx){return (mask&(1<<idx))!==0;}` -/
def bitOn (mask idx : Nat) : Bool :=
  (mask &&& (1 <<< idx)) != 0

/-- The part of the script's `state` object that the modelled functions read. -/
structure UiState where
  mask : Nat
  names : List String
  allOn : Bool
  anyOn : Bool
  deriving DecidableEq, Repr

/-- A request `setCh(ch,v)` wired to a button. -/
structure SetCh where
  ch : Nat
  v : Nat
  deriving DecidableEq, Repr

/-- What `renderCards` writes for one channel. -/
structure Card where
  name : String
  kanal : Nat
  status : String
  mainClass : String
  mainCmd : SetCh
  mainLabel : String
  anCmd : SetCh
  ausCmd : SetCh
  toggleCmd : SetCh
  deriving DecidableEq, Repr

/-- `(state.names && state.names[i-1]) ? state.names[i-1] : "Diffuser i"`;
an empty name is falsy. -/
def cardName (names : List String) (i : Nat) : String :=
  match names.get? (i - 1) with
  | some nm => if nm ≠ "" then nm else "Diffuser " ++ toString i
  | none => "Diffuser " ++ toString i

/-- Body of the `for` loop of `renderCards` for channel `i`. -/
def renderCard (state : UiState) (i : Nat) : Card :=
  let isOn := bitOn state.mask (i - 1)
  { name := cardName state.names i
    kanal := i
    status := if isOn then "ON" else "OFF"
    mainClass := if isOn then "on" else "off"
    mainCmd := { ch := i, v := if isOn then 0 else 1 }
    mainLabel := if isOn then "AUS" else "AN"
    anCmd := { ch := i, v := 1 }
    ausCmd := { ch := i, v := 0 }
    toggleCmd := { ch := i, v := if isOn then 0 else 1 } }

/-- `function renderCards()`: `for(let i=1;i<=8;i++){...}`. -/
def renderCards (state : UiState) : List Card :=
  (List.range 8).map (fun k => renderCard state (k + 1))

/-- `function updateAllStatus()`: the text written to `allStatus`. -/
def updateAllStatus (state : UiState) : String :=
  if state.allOn then "Status: ALLE AN"
  else if state.anyOn then "Status: TEILWEISE AN"
  else "Status: ALLE AUS"

/-! ## WebUi.cpp: JavaScript string primitives used by the script -/

/-- White space and line terminators of ECMAScript (`StrWhiteSpaceChar`): what
`String.prototype.trim` strips and what `parseInt` skips at the start. -/
def isStrWhiteSpace (c : Char) : Bool :=
  let n := c.toNat
  n == 0x09 || n == 0x0A || n == 0x0B || n == 0x0C || n == 0x0D || n == 0x20 ||
  n == 0xA0 || n == 0x1680 || (0x2000 ≤ n && n ≤ 0x200A) || n == 0x2028 ||
  n == 0x2029 || n == 0x202F || n == 0x205F || n == 0x3000 || n == 0xFEFF

/-- `String.prototype.trim`. -/
def trim (s : List Char) : List Char :=
  ((s.dropWhile isStrWhiteSpace).reverse.dropWhile isStrWhiteSpace).reverse

/-- `String.prototype.toLowerCase` on the Basic Latin block. Outside that
block the character is returned as it is; the only texts lower-cased below
are compared with ASCII words, and no character outside Basic Latin
lower-cases to one of the letters of those words. -/
def toLowerCase (s : List Char) : List Char :=
  s.map (fun c => if 'A' ≤ c ∧ c ≤ 'Z' then Char.ofNat (c.toNat + 32) else c)

/-- `String.prototype.split` with a one-character separator:
`"".split(':')` is `[""]`, `"a:b".split(':')` is `["a","b"]`. -/
def split (sep : Char) : List Char → List (List Char)
  | [] => [[]]
  | c :: cs =>
    if c = sep then [] :: split sep cs
    else match split sep cs with
      | [] => [[c]]
      | p :: ps => (c :: p) :: ps

/-- `Array.prototype.join` with a one-character separator. -/
def join (sep : Char) : List (List Char) → List Char
  | [] => []
  | [p] => p
  | p :: q :: ps => p ++ sep :: join sep (q :: ps)

/-- Value of a decimal digit character. -/
def digitVal (c : Char) : Nat := c.toNat - '0'.toNat

/-- Value of a run of decimal digits read left to right. -/
def digitsValue (ds : List Char) : Nat :=
  ds.foldl (fun acc c => 10 * acc + digitVal c) 0

/-- `parseInt(s,10)`: skip leading white space, read an optional sign, read
the longest run of decimal digits; `NaN` (`none`) when that run is empty.
Radix 10 is given, so a `0x` prefix is not recognised. The exact integer is
returned; the script only uses the result through `Math.min`/`Math.max`
against 0, 23 and 59, where the rounding of a long digit run to a double
makes no difference. -/
def parseInt (s : List Char) : Option Int :=
  let t := s.dropWhile isStrWhiteSpace
  let signed : Bool × List Char :=
    match t with
    | '-' :: r => (true, r)
    | '+' :: r => (false, r)
    | _ => (false, t)
  let ds := signed.2.takeWhile Char.isDigit
  if ds.isEmpty then none
  else some (if signed.1 then -(digitsValue ds : Int) else (digitsValue ds : Int))

/-- `String(n)` for a non-negative integer `n`: its decimal digits. -/
def numToString (n : Nat) : List Char := Nat.toDigits 10 n

/-- `String.prototype.padStart(len, fill)` with a one-character filler. -/
def padStart (len : Nat) (fill : Char) (s : List Char) : List Char :=
  if s.length ≥ len then s else List.replicate (len - s.length) fill ++ s

/-! ## WebUi.cpp: time-of-day and weekday text -/

/-- `function minToHHMM(m){const h=String(Math.floor(m/60)).padStart(2,'0');
const mm=String(m%60).padStart(2,'0');return h+":"+mm;}` on a non-negative
integer `m`. -/
def minToHHMM (m : Nat) : List Char :=
  let h := padStart 2 '0' (numToString (m / 60))
  let mm := padStart 2 '0' (numToString (m % 60))
  h ++ ':' :: mm

/-- `function hhmmToMin(s){const p=s.split(':');if(p.length!==2)return 0;
const h=parseInt(p[0],10),m=parseInt(p[1],10);if(isNaN(h)||isNaN(m))return 0;
return (Math.max(0,Math.min(23,h))*60+Math.max(0,Math.min(59,m)));}` -/
def hhmmToMin (s : List Char) : Int :=
  match split ':' s with
  | [p0, p1] =>
    match parseInt p0, parseInt p1 with
    | some h, some m => max 0 (min 23 h) * 60 + max 0 (min 59 m)
    | _, _ => 0
  | _ => 0

/-- `const names=["Mo","Di","Mi","Do","Fr","Sa","So"];` of `daysToText`. -/
def dayNames : List (List Char) :=
  ["Mo".toList, "Di".toList, "Mi".toList, "Do".toList, "Fr".toList, "Sa".toList, "So".toList]

/-- `function daysToText(mask){...let out=[];for(let i=0;i<7;i++)
if(mask&(1<<i))out.push(names[i]);return out.length?out.join(","):"—";}` -/
def daysToText (mask : Nat) : List Char :=
  let out := (List.range 7).foldl
    (fun (out : List (List Char)) i =>
      if (mask &&& (1 <<< i)) ≠ 0 then out ++ [dayNames.getD i []] else out) []
  if out.length ≠ 0 then join ',' out else "—".toList

/-- `map[x]` for `const map={mo:0,di:1,mi:2,do:3,fr:4,sa:5,so:6};` as the shift
count that `1<<map[x]` uses, `none` when `map[x]` is `undefined`. Besides the
seven own keys, the object inherits the all-lower-case names `constructor`
and `__proto__`, whose values are not numbers and shift by 0. -/
def dayShift (x : List Char) : Option Nat :=
  if x = "mo".toList then some 0
  else if x = "di".toList then some 1
  else if x = "mi".toList then some 2
  else if x = "do".toList then some 3
  else if x = "fr".toList then some 4
  else if x = "sa".toList then some 5
  else if x = "so".toList then some 6
  else if x = "constructor".toList then some 0
  else if x = "__proto__".toList then some 0
  else none

/-- The parser of `toggleDays` applied to the text `inp` that the prompt
returned: the value stored into `rules[idx].d`. -/
def toggleDays (inp : List Char) : Nat :=
  let v := toLowerCase (trim inp)
  if v = "all".toList then 0x7F
  else if v = "none".toList then 0x00
  else
    ((split ',' v).map trim).foldl
      (fun m x => match dayShift x with
        | some k => m ||| (1 <<< k)
        | none => m) 0

/-- The decimal digit character of `k < 10`. -/
def digitChar (k : Nat) : Char := Char.ofNat (48 + k)

/-- The `onchange` handler of the "Von" field of row `idx` in
`renderSchedules`: `rules[idx].s=hhmmToMin(this.value)`. -/
def setStart (rules : List UiRule) (idx : Nat) (value : List Char) : List UiRule :=
  match rules[idx]? with
  | some r => rules.set idx { r with s := hhmmToMin value }
  | none => rules

/-- The `onchange` handler of the "Bis" field of row `idx` in
`renderSchedules`: `rules[idx].e=hhmmToMin(this.value)`. -/
def setEnd (rules : List UiRule) (idx : Nat) (value : List Char) : List UiRule :=
  match rules[idx]? with
  | some r => rules.set idx { r with e := hhmmToMin value }
  | none => rules

/-- The names that `daysToText` is to list for `mask`: those at the set bit
positions, in the order of `dayNames`. -/
def namesAtSetBits (mask : Nat) : List (List Char) :=
  ((List.range 7).filter (fun i => mask.testBit i)).map (fun i => dayNames.getD i [])

/-! ## Rule list: save, capacity, reload -/

theorem saveAllSchedules_length (L : List UiRule) : (saveAllSchedules L).length = 16 := by
  simp [saveAllSchedules]

theorem saveAllSchedules_getElem? (L : List UiRule) (i : Nat) (hi : i < 16) :
    (saveAllSchedules L)[i]? = some ((L[i]?).getD fillerRule) := by
  simp [saveAllSchedules, List.getElem?_range hi]

theorem saveAllSchedules_eq (L : List UiRule) :
    saveAllSchedules L = L.take 16 ++ List.replicate (16 - min L.length 16) fillerRule := by
  apply List.ext_getElem?
  intro i
  by_cases hi : i < 16
  · rw [saveAllSchedules_getElem? L i hi]
    by_cases hl : i < L.length
    · rw [List.getElem?_append_left (by simp; omega), List.getElem?_take_of_lt hi]
      simp [List.getElem?_eq_getElem hl]
    · rw [List.getElem?_append_right (by simp; omega)]
      rw [List.getElem?_eq_none (by omega), List.getElem?_replicate]
      simp only [List.length_take, Option.getD_none]
      rw [if_pos (by omega)]
  · rw [List.getElem?_eq_none (by rw [saveAllSchedules_length]; omega)]
    rw [List.getElem?_eq_none (by simp; omega)]

theorem eq_nil_or_snoc (rules : List UiRule) :
    rules = [] ∨ ∃ init r, rules = init ++ [r] := by
  rcases List.eq_nil_or_concat rules with h0 | ⟨init, r, hr⟩
  · exact Or.inl h0
  · exact Or.inr ⟨init, r, by rw [hr, List.concat_eq_append]⟩

theorem popCond_eq_false_iff (rules : List UiRule) :
    popCond rules = false ↔
      rules = [] ∨ rules.length = 1 ∨ ∃ init r, rules = init ++ [r] ∧ r.en = true := by
  constructor
  · intro h
    rcases eq_nil_or_snoc rules with h0 | ⟨init, r, hr⟩
    · exact Or.inl h0
    · subst hr
      by_cases h1 : init = []
      · subst h1; exact Or.inr (Or.inl rfl)
      · refine Or.inr (Or.inr ⟨init, r, rfl, ?_⟩)
        have hlen : 0 < init.length := List.length_pos.mpr h1
        simp [popCond, List.getLast?_concat] at h
        cases hen : r.en
        · exact absurd (h hen) h1
        · rfl
  · rintro (h | h | ⟨init, r, h, hen⟩)
    · subst h; rfl
    · simp [popCond, h]
    · subst h; simp [popCond, List.getLast?_concat, hen]

theorem popCond_concat_disabled (init : List UiRule) (r : UiRule)
    (hinit : init ≠ []) (hr : r.en = false) : popCond (init ++ [r]) = true := by
  have hlen : 0 < init.length := List.length_pos.mpr hinit
  simp [popCond, List.getLast?_concat, hr]
  omega

theorem popCond_true_split (rules : List UiRule) (h : popCond rules = true) :
    ∃ r, rules = rules.dropLast ++ [r] ∧ r.en = false ∧ rules.dropLast ≠ [] := by
  rcases eq_nil_or_snoc rules with h0 | ⟨init, r, hr⟩
  · subst h0; simp [popCond] at h
  · subst hr
    simp [popCond, List.getLast?_concat] at h
    refine ⟨r, by simp, h.1, ?_⟩
    simp only [List.dropLast_concat]
    exact List.length_pos.mp h.2

/-- The loop of `reloadSchedules` removes a block of disabled rules from the
end and stops at a list on which its condition is false, whenever the bound
is at least the length of the list. -/
theorem popLoop_spec (fuel : Nat) (rules : List UiRule) (hf : rules.length ≤ fuel) :
    ∃ S, rules = popLoop fuel rules ++ S ∧ (∀ r ∈ S, r.en = false) ∧
      popCond (popLoop fuel rules) = false := by
  induction fuel generalizing rules with
  | zero =>
    have h0 : rules = [] := List.length_eq_zero.mp (by omega)
    subst h0
    exact ⟨[], by simp [popLoop], by simp, rfl⟩
  | succ n ih =>
    unfold popLoop
    by_cases hc : popCond rules = true
    · rw [if_pos hc]
      obtain ⟨r, hsplit, hr, _⟩ := popCond_true_split rules hc
      have hlen : rules.dropLast.length ≤ n := by
        simp only [List.length_dropLast]; omega
      obtain ⟨S, hS, hdis, hexit⟩ := ih rules.dropLast hlen
      refine ⟨S ++ [r], ?_, ?_, hexit⟩
      · rw [← List.append_assoc, ← hS]; exact hsplit
      · intro x hx
        rcases List.mem_append.mp hx with hx | hx
        · exact hdis x hx
        · simp at hx; subst hx; exact hr
    · rw [if_neg hc]
      exact ⟨[], by simp, by simp, by simpa using hc⟩

theorem popLoop_ne_nil (fuel : Nat) (rules : List UiRule) (h : rules ≠ []) :
    popLoop fuel rules ≠ [] := by
  induction fuel generalizing rules with
  | zero => simpa [popLoop] using h
  | succ n ih =>
    unfold popLoop
    by_cases hc : popCond rules = true
    · rw [if_pos hc]
      obtain ⟨_, _, _, hd⟩ := popCond_true_split rules hc
      exact ih rules.dropLast hd
    · rw [if_neg hc]; exact h

theorem popLoop_append_fillers (L : List UiRule) (k fuel : Nat) (hk : k ≤ fuel)
    (hL : popCond L = false) (hne : L ≠ []) :
    popLoop fuel (L ++ List.replicate k fillerRule) = L := by
  induction k generalizing fuel with
  | zero =>
    cases fuel with
    | zero => simp [popLoop]
    | succ n => simp [popLoop, hL]
  | succ k ih =>
    cases fuel with
    | zero => omega
    | succ n =>
      have hcond : popCond (L ++ List.replicate (k + 1) fillerRule) = true := by
        rw [List.replicate_succ', ← List.append_assoc]
        exact popCond_concat_disabled _ _ (by simp [hne]) rfl
      unfold popLoop
      rw [if_pos hcond, List.replicate_succ', ← List.append_assoc, List.dropLast_concat]
      exact ih n (by omega)

/-- C2: for every UI rule list `L`, `saveAllSchedules` submits exactly 16
records; record `i` is `L[i]` for every `i < min |L| 16`, every remaining
record is the disabled filler, and the filler is field for field the
default-constructed firmware `ScheduleRule`. -/
theorem saveAllSchedules_records (L : List UiRule) :
    (saveAllSchedules L).length = 16 ∧
    (∀ i, i < min L.length 16 → (saveAllSchedules L)[i]? = L[i]?) ∧
    (∀ i, min L.length 16 ≤ i → i < 16 → (saveAllSchedules L)[i]? = some fillerRule) ∧
    saveAllSchedules L = L.take 16 ++ List.replicate (16 - min L.length 16) fillerRule ∧
    (fillerRule.en = ({} : ScheduleRule).enabled ∧
      fillerRule.ch = ({} : ScheduleRule).channel ∧
      fillerRule.s = (({} : ScheduleRule).startMin : Int) ∧
      fillerRule.e = (({} : ScheduleRule).endMin : Int) ∧
      fillerRule.d = ({} : ScheduleRule).daysMask) := by
  refine ⟨saveAllSchedules_length L, ?_, ?_, saveAllSchedules_eq L, ?_⟩
  · intro i hi
    have h16 : i < 16 := by omega
    have hl : i < L.length := by omega
    rw [saveAllSchedules_getElem? L i h16, List.getElem?_eq_getElem hl]
    rfl
  · intro i hi h16
    have hl : L.length ≤ i := by omega
    rw [saveAllSchedules_getElem? L i h16, List.getElem?_eq_none hl]
    rfl
  · decide

theorem saveAllSchedules_records_witness :
    (saveAllSchedules [newRule, fillerRule])[1]? = [newRule, fillerRule][1]? ∧
    (saveAllSchedules [newRule, fillerRule])[15]? = some fillerRule :=
  ⟨(saveAllSchedules_records [newRule, fillerRule]).2.1 1 (by decide),
   (saveAllSchedules_records [newRule, fillerRule]).2.2.1 15 (by decide) (by decide)⟩

/-- C3: `addRule` enforces the capacity of 16 rules. On a list of 16 or more
rules it leaves the list unchanged and raises "Max 16 Regeln"; on a shorter
list it appends exactly one rule at the end, the existing rules staying as
they are; a list of at most `MAX_RULES` rules never grows past `MAX_RULES`. -/
theorem addRule_capacity (rules : List UiRule) :
    (16 ≤ rules.length →
      (addRule rules).rules = rules ∧ (addRule rules).alert = some "Max 16 Regeln") ∧
    (rules.length < 16 →
      (addRule rules).rules = rules ++ [newRule] ∧
      (addRule rules).rules.length = rules.length + 1 ∧
      (∀ i, i < rules.length → (addRule rules).rules[i]? = rules[i]?) ∧
      (addRule rules).alert = none) ∧
    (rules.length ≤ MAX_RULES → (addRule rules).rules.length ≤ MAX_RULES) := by
  refine ⟨?_, ?_, ?_⟩
  · intro h
    simp [addRule, h]
  · intro h
    have h16 : ¬ rules.length ≥ 16 := by omega
    simp only [addRule, if_neg h16, List.length_append, List.length_singleton]
    refine ⟨trivial, trivial, ?_, trivial⟩
    intro i hi
    exact List.getElem?_append_left hi
  · intro h
    unfold MAX_RULES at *
    by_cases h16 : rules.length ≥ 16
    · simp only [addRule, if_pos h16]; exact h
    · simp only [addRule, if_neg h16, List.length_append, List.length_singleton]; omega

theorem addRule_capacity_witness :
    ((addRule (List.replicate 16 newRule)).rules = List.replicate 16 newRule ∧
      (addRule (List.replicate 16 newRule)).alert = some "Max 16 Regeln") ∧
    ((addRule [fillerRule]).rules = [fillerRule] ++ [newRule] ∧
      (addRule [fillerRule]).rules.length = [fillerRule].length + 1 ∧
      (∀ i, i < [fillerRule].length → (addRule [fillerRule]).rules[i]? = [fillerRule][i]?) ∧
      (addRule [fillerRule]).alert = none) ∧
    (addRule (List.replicate 16 newRule)).rules.length ≤ MAX_RULES :=
  ⟨(addRule_capacity (List.replicate 16 newRule)).1 (by decide),
   (addRule_capacity [fillerRule]).2.1 (by decide),
   (addRule_capacity (List.replicate 16 newRule)).2.2 (by decide)⟩

/-- C9: for every received rule list `R`, the list that `reloadSchedules`
keeps is a prefix of the first 16 entries of `R`; what it leaves out of those
entries is a block of disabled rules at the end; every enabled rule among the
first 16 stays at its index; the list is empty when `R` is empty and has at
least one rule otherwise; it has at most 16 rules; and it is the shortest
prefix with these properties. The loop ends because its condition fails, not
because the iteration bound is reached. -/
theorem reloadSchedules_kept (R : List UiRule) :
    reloadSchedules (some R) <+: R.take 16 ∧
    (∃ S, R.take 16 = reloadSchedules (some R) ++ S ∧ ∀ r ∈ S, r.en = false) ∧
    (∀ (i : Nat) (r : UiRule), (R.take 16)[i]? = some r → r.en = true →
      (reloadSchedules (some R))[i]? = some r) ∧
    (R = [] → reloadSchedules (some R) = []) ∧
    (R ≠ [] → 1 ≤ (reloadSchedules (some R)).length) ∧
    (reloadSchedules (some R)).length ≤ 16 ∧
    (∀ P : List UiRule, P <+: R.take 16 →
      (∀ (i : Nat) (r : UiRule), (R.take 16)[i]? = some r → r.en = true → i < P.length) →
      (R ≠ [] → 1 ≤ P.length) →
      (reloadSchedules (some R)).length ≤ P.length) ∧
    popCond (reloadSchedules (some R)) = false := by
  obtain ⟨S, hS, hdis, hexit⟩ := popLoop_spec (R.take 16).length (R.take 16) (Nat.le_refl _)
  have hK : reloadSchedules (some R) = popLoop (R.take 16).length (R.take 16) := rfl
  have hne : R ≠ [] → reloadSchedules (some R) ≠ [] := by
    intro hR
    rw [hK]
    exact popLoop_ne_nil _ _ (by cases R with
      | nil => exact absurd rfl hR
      | cons a t => simp)
  rw [← hK] at hS hexit
  generalize reloadSchedules (some R) = K at hS hexit hne
  have hlenT : (R.take 16).length ≤ 16 := by simp
  have hlen : (R.take 16).length = K.length + S.length := by
    rw [hS]; simp
  have hkeep : ∀ i r, (R.take 16)[i]? = some r → r.en = true → i < K.length := by
    intro i r hi hen
    by_contra hlt
    rw [hS, List.getElem?_append_right (by omega)] at hi
    have hmem : r ∈ S := List.getElem?_mem hi
    rw [hdis r hmem] at hen
    exact Bool.noConfusion hen
  refine ⟨⟨S, hS.symm⟩, ⟨S, hS, hdis⟩, ?_, ?_, ?_, by omega, ?_, hexit⟩
  · intro i r hi hen
    have hlt := hkeep i r hi hen
    rw [hS, List.getElem?_append_left hlt] at hi
    exact hi
  · intro hR
    subst hR
    simp at hS
    exact hS.1
  · intro hR
    exact List.length_pos.mpr (hne hR)
  · intro P hP hall hone
    rcases (popCond_eq_false_iff K).mp hexit with h0 | h1 | ⟨init, r, hr, hen⟩
    · subst h0; simp
    · rw [h1]
      apply hone
      intro hR
      subst hR
      simp at hS
      rw [hS.1] at h1
      simp at h1
    · have hidx : (R.take 16)[init.length]? = some r := by
        rw [hS, hr, List.getElem?_append_left (by simp)]
        exact List.getElem?_concat_length init r
      have := hall init.length r hidx hen
      rw [hr]; simp; omega

theorem reloadSchedules_kept_witness :
    1 ≤ (reloadSchedules (some [fillerRule, newRule, fillerRule, fillerRule])).length ∧
    (reloadSchedules (some [fillerRule, newRule, fillerRule, fillerRule]))[1]? = some newRule :=
  ⟨(reloadSchedules_kept [fillerRule, newRule, fillerRule, fillerRule]).2.2.2.2.1 (by decide),
   (reloadSchedules_kept [fillerRule, newRule, fillerRule, fillerRule]).2.2.1 1 newRule
     (by decide) (by decide)⟩

/-- C10: for every rule list `L` with `1 ≤ |L| ≤ 16` whose last rule is
enabled, the trimming of `reloadSchedules` applied to the 16 records that
`saveAllSchedules` builds from `L` gives `L` back. -/
theorem reload_save_roundtrip (L : List UiRule) (h1 : 1 ≤ L.length) (h16 : L.length ≤ 16)
    (hlast : ∃ r, L.getLast? = some r ∧ r.en = true) :
    reloadSchedules (some (saveAllSchedules L)) = L := by
  have hne : L ≠ [] := List.length_pos.mp h1
  obtain ⟨r, hr, hen⟩ := hlast
  obtain ⟨init, hinit⟩ := List.getLast?_eq_some_iff.mp hr
  have hcond : popCond L = false :=
    (popCond_eq_false_iff L).mpr (Or.inr (Or.inr ⟨init, r, hinit, hen⟩))
  have htake : (saveAllSchedules L).take 16 = saveAllSchedules L := by
    apply List.take_of_length_le
    rw [saveAllSchedules_length]
  have hsave : saveAllSchedules L = L ++ List.replicate (16 - L.length) fillerRule := by
    rw [saveAllSchedules_eq, List.take_of_length_le h16, Nat.min_eq_left h16]
  show popLoop ((saveAllSchedules L).take 16).length ((saveAllSchedules L).take 16) = L
  rw [htake, saveAllSchedules_length, hsave]
  exact popLoop_append_fillers L (16 - L.length) 16 (by omega) hcond hne

theorem reload_save_roundtrip_witness :
    reloadSchedules (some (saveAllSchedules [fillerRule, newRule])) = [fillerRule, newRule] :=
  reload_save_roundtrip [fillerRule, newRule] (by decide) (by decide)
    ⟨newRule, by decide, by decide⟩

/-! ## Channel cards and aggregate status -/

theorem bitOn_eq_testBit (mask idx : Nat) : bitOn mask idx = mask.testBit idx := by
  unfold bitOn
  rw [Nat.one_shiftLeft, Nat.and_two_pow]
  have hpos : 0 < 2 ^ idx := Nat.two_pow_pos idx
  cases h : mask.testBit idx
  · simp
  · simp only [Bool.toNat_true, Nat.one_mul, bne_iff_ne, ne_eq]
    omega

/-- C6: for every mask (in particular every mask in 0..255) and every channel `i` in 1..8, the card that
`renderCards` writes for channel `i` shows ON iff bit `i-1` of the mask is
set (`bitOn mask (i-1)`), and its Toggle command addresses the same channel
`i` and requests 1 iff that bit is clear, the complement of what is shown. -/
theorem renderCards_toggle (st : UiState) (i : Nat) (h1 : 1 ≤ i) (h8 : i ≤ 8) :
    ∃ card, (renderCards st)[i - 1]? = some card ∧
      card.kanal = i ∧
      (card.status = "ON" ↔ bitOn st.mask (i - 1) = true) ∧
      (card.status = "OFF" ↔ bitOn st.mask (i - 1) = false) ∧
      (bitOn st.mask (i - 1) = true ↔ st.mask.testBit (i - 1) = true) ∧
      card.toggleCmd.ch = i ∧
      (card.toggleCmd.v = 1 ↔ st.mask.testBit (i - 1) = false) ∧
      (card.toggleCmd.v = 0 ↔ st.mask.testBit (i - 1) = true) ∧
      (card.toggleCmd.v = 1 ↔ card.status = "OFF") := by
  refine ⟨renderCard st i, ?_, rfl, ?_⟩
  · have hlt : i - 1 < 8 := by omega
    have hi : i - 1 + 1 = i := by omega
    simp [renderCards, List.getElem?_range hlt, hi]
  · rw [← bitOn_eq_testBit]
    cases hb : bitOn st.mask (i - 1) <;> simp [renderCard, hb]

theorem renderCards_toggle_witness :
    ∃ card, (renderCards { mask := 5, names := [], allOn := false, anyOn := true })[3 - 1]?
        = some card ∧
      card.kanal = 3 ∧
      (card.status = "ON" ↔ bitOn 5 (3 - 1) = true) ∧
      (card.status = "OFF" ↔ bitOn 5 (3 - 1) = false) ∧
      (bitOn 5 (3 - 1) = true ↔ (5 : Nat).testBit (3 - 1) = true) ∧
      card.toggleCmd.ch = 3 ∧
      (card.toggleCmd.v = 1 ↔ (5 : Nat).testBit (3 - 1) = false) ∧
      (card.toggleCmd.v = 0 ↔ (5 : Nat).testBit (3 - 1) = true) ∧
      (card.toggleCmd.v = 1 ↔ card.status = "OFF") :=
  renderCards_toggle { mask := 5, names := [], allOn := false, anyOn := true } 3
    (by decide) (by decide)

theorem mask_full_iff : ∀ mask, mask < 256 →
    (mask = 0xFF ↔ ∀ i, i < 8 → mask.testBit i = true) := by
  intro mask hm
  constructor
  · intro h
    subst h
    decide
  · intro h
    apply Nat.eq_of_testBit_eq
    intro i
    have h255 : (0xFF : Nat) = 2 ^ 8 - 1 := by decide
    rw [h255, Nat.testBit_two_pow_sub_one]
    by_cases hi : i < 8
    · simp [hi, h i hi]
    · have hle : 2 ^ 8 ≤ 2 ^ i := Nat.pow_le_pow_right (by decide) (by omega)
      simp only [hi, decide_False]
      exact Nat.testBit_lt_two_pow (by omega)

/-- C7: for every state, `updateAllStatus` shows exactly one of the three
summaries: "ALLE AN" iff `allOn`; "TEILWEISE AN" iff not `allOn` and `anyOn`;
"ALLE AUS" iff neither flag is set. When the flags agree with an 8-bit mask
(`allOn` iff the mask is 0xFF, `anyOn` iff it is not 0), the summary is
all-on iff all 8 bits are set, all-off iff the mask is 0, mixed otherwise. -/
theorem updateAllStatus_summary (st : UiState) :
    (updateAllStatus st = "Status: ALLE AN" ∨
      updateAllStatus st = "Status: TEILWEISE AN" ∨
      updateAllStatus st = "Status: ALLE AUS") ∧
    (updateAllStatus st = "Status: ALLE AN" ↔ st.allOn = true) ∧
    (updateAllStatus st = "Status: TEILWEISE AN" ↔ st.allOn = false ∧ st.anyOn = true) ∧
    (updateAllStatus st = "Status: ALLE AUS" ↔ st.allOn = false ∧ st.anyOn = false) ∧
    (st.mask < 256 → (st.allOn = true ↔ st.mask = 0xFF) → (st.anyOn = true ↔ st.mask ≠ 0) →
      (updateAllStatus st = "Status: ALLE AN" ↔ ∀ i, i < 8 → st.mask.testBit i = true) ∧
      (updateAllStatus st = "Status: ALLE AUS" ↔ st.mask = 0) ∧
      (updateAllStatus st = "Status: TEILWEISE AN" ↔
        st.mask ≠ 0 ∧ ¬ ∀ i, i < 8 → st.mask.testBit i = true)) := by
  have key : (updateAllStatus st = "Status: ALLE AN" ↔ st.allOn = true) ∧
      (updateAllStatus st = "Status: TEILWEISE AN" ↔ st.allOn = false ∧ st.anyOn = true) ∧
      (updateAllStatus st = "Status: ALLE AUS" ↔ st.allOn = false ∧ st.anyOn = false) := by
    unfold updateAllStatus
    cases st.allOn <;> cases st.anyOn <;> simp
  refine ⟨?_, key.1, key.2.1, key.2.2, ?_⟩
  · unfold updateAllStatus
    cases st.allOn <;> cases st.anyOn <;> simp
  · intro hm hall hany
    rw [key.1, key.2.1, key.2.2, ← mask_full_iff st.mask hm, hall]
    refine ⟨Iff.rfl, ?_, ?_⟩
    · constructor
      · rintro ⟨ha, hn⟩
        by_contra h0
        rw [hany.mpr h0] at hn
        exact Bool.noConfusion hn
      · intro h0
        constructor
        · cases ha : st.allOn
          · rfl
          · have := hall.mp ha; omega
        · cases hn : st.anyOn
          · rfl
          · exact absurd h0 (hany.mp hn)
    · constructor
      · rintro ⟨ha, hn⟩
        refine ⟨hany.mp hn, ?_⟩
        intro hff
        rw [hall.mpr hff] at ha
        exact Bool.noConfusion ha
      · rintro ⟨h0, hff⟩
        constructor
        · cases ha : st.allOn
          · rfl
          · exact absurd (hall.mp ha) hff
        · exact hany.mpr h0

theorem updateAllStatus_summary_witness :
    (updateAllStatus { mask := 5, names := [], allOn := false, anyOn := true }
        = "Status: ALLE AN" ↔ ∀ i, i < 8 → (5 : Nat).testBit i = true) ∧
    (updateAllStatus { mask := 5, names := [], allOn := false, anyOn := true }
        = "Status: ALLE AUS" ↔ (5 : Nat) = 0) ∧
    (updateAllStatus { mask := 5, names := [], allOn := false, anyOn := true }
        = "Status: TEILWEISE AN" ↔
      (5 : Nat) ≠ 0 ∧ ¬ ∀ i, i < 8 → (5 : Nat).testBit i = true) :=
  (updateAllStatus_summary { mask := 5, names := [], allOn := false, anyOn := true }).2.2.2.2
    (by decide) (by decide) (by decide)

/-! ## Time-of-day text -/

theorem split_ne_nil (sep : Char) (s : List Char) : split sep s ≠ [] := by
  cases s with
  | nil => simp [split]
  | cons c cs =>
    unfold split
    split
    · simp
    · split <;> simp

theorem split_length (sep : Char) (s : List Char) :
    (split sep s).length = s.count sep + 1 := by
  induction s with
  | nil => simp [split]
  | cons c cs ih =>
    unfold split
    by_cases hc : c = sep
    · subst hc
      simp [ih]
    · rw [if_neg hc, List.count_cons_of_ne (fun h => hc h.symm)]
      rcases hsp : split sep cs with _ | ⟨p, ps⟩
      · exact absurd hsp (split_ne_nil sep cs)
      · rw [hsp] at ih
        simpa using ih

theorem split_cons_of_ne (sep c : Char) (cs p : List Char) (ps : List (List Char))
    (hc : c ≠ sep) (h : split sep cs = p :: ps) :
    split sep (c :: cs) = (c :: p) :: ps := by
  rw [split, if_neg hc, h]

theorem split_of_not_mem (sep : Char) (p : List Char) (hp : sep ∉ p) :
    split sep p = [p] := by
  induction p with
  | nil => simp [split]
  | cons c cs ih =>
    have hc : c ≠ sep := fun h => hp (by simp [h])
    have hcs : sep ∉ cs := fun h => hp (List.mem_cons_of_mem _ h)
    exact split_cons_of_ne sep c cs cs [] hc (ih hcs)

theorem split_append_sep (sep : Char) (p rest : List Char) (hp : sep ∉ p) :
    split sep (p ++ sep :: rest) = p :: split sep rest := by
  induction p with
  | nil => simp [split]
  | cons c cs ih =>
    have hc : c ≠ sep := fun h => hp (by simp [h])
    have hcs : sep ∉ cs := fun h => hp (List.mem_cons_of_mem _ h)
    rw [List.cons_append]
    exact split_cons_of_ne sep c _ cs _ hc (ih hcs)

theorem hhmmToMin_bounds (s : List Char) : 0 ≤ hhmmToMin s ∧ hhmmToMin s < 1440 := by
  unfold hhmmToMin
  split
  · split
    · omega
    · omega
  · omega

set_option maxRecDepth 100000 in
theorem pad_two_digits : ∀ n, n < 100 →
    padStart 2 '0' (numToString n) = [digitChar (n / 10), digitChar (n % 10)] ∧
    parseInt (padStart 2 '0' (numToString n)) = some (n : Int) ∧
    ':' ∉ padStart 2 '0' (numToString n) := by
  decide

/-- C4: for every input string `s`, `hhmmToMin s` is an integer in
`[0, 1440)`. An input that does not split at ':' into exactly two parts
(that is, does not hold exactly one ':'), or whose hour or minute part
`parseInt` turns into `NaN`, gives 0; otherwise the result is
`clamp(h,0,23) * 60 + clamp(m,0,59)`. Hence the start and end minute that the
schedule editor stores into a rule are within the minute-of-day range. -/
theorem hhmmToMin_range (s : List Char) :
    (0 ≤ hhmmToMin s ∧ hhmmToMin s < 1440) ∧
    ((split ':' s).length ≠ 2 → hhmmToMin s = 0) ∧
    (s.count ':' ≠ 1 → hhmmToMin s = 0) ∧
    (∀ p0 p1, split ':' s = [p0, p1] → parseInt p0 = none ∨ parseInt p1 = none →
      hhmmToMin s = 0) ∧
    (∀ p0 p1 h m, split ':' s = [p0, p1] → parseInt p0 = some h → parseInt p1 = some m →
      hhmmToMin s = max 0 (min 23 h) * 60 + max 0 (min 59 m)) ∧
    (∀ (rules : List UiRule) (idx : Nat) (r : UiRule),
      idx < rules.length → (setStart rules idx s)[idx]? = some r → 0 ≤ r.s ∧ r.s < 1440) ∧
    (∀ (rules : List UiRule) (idx : Nat) (r : UiRule),
      idx < rules.length → (setEnd rules idx s)[idx]? = some r → 0 ≤ r.e ∧ r.e < 1440) := by
  have hlen : (split ':' s).length ≠ 2 → hhmmToMin s = 0 := by
    intro h
    unfold hhmmToMin
    split
    · rename_i p0 p1 heq
      rw [heq] at h
      exact absurd rfl h
    · rfl
  refine ⟨hhmmToMin_bounds s, hlen, ?_, ?_, ?_, ?_, ?_⟩
  · intro h
    apply hlen
    rw [split_length]
    omega
  · intro p0 p1 hsp hnan
    unfold hhmmToMin
    rw [hsp]
    rcases hnan with h | h
    · simp [h]
    · cases h0 : parseInt p0 <;> simp [h]
  · intro p0 p1 h m hsp h0 h1
    unfold hhmmToMin
    rw [hsp]
    simp [h0, h1]
  · intro rules idx r hidx hget
    unfold setStart at hget
    rw [List.getElem?_eq_getElem hidx] at hget
    simp only [List.getElem?_set_self hidx, Option.some.injEq] at hget
    rw [← hget]
    exact hhmmToMin_bounds s
  · intro rules idx r hidx hget
    unfold setEnd at hget
    rw [List.getElem?_eq_getElem hidx] at hget
    simp only [List.getElem?_set_self hidx, Option.some.injEq] at hget
    rw [← hget]
    exact hhmmToMin_bounds s

theorem hhmmToMin_range_witness :
    hhmmToMin "12:30:00".toList = 0 ∧
    hhmmToMin "ab:30".toList = 0 ∧
    hhmmToMin "25:75".toList = max 0 (min 23 25) * 60 + max 0 (min 59 75) ∧
    (0 ≤ ({ fillerRule with s := 480 } : UiRule).s ∧
      ({ fillerRule with s := 480 } : UiRule).s < 1440) :=
  ⟨(hhmmToMin_range "12:30:00".toList).2.1 (by decide),
   (hhmmToMin_range "ab:30".toList).2.2.2.1 "ab".toList "30".toList (by decide)
     (Or.inl (by decide)),
   (hhmmToMin_range "25:75".toList).2.2.2.2.1 "25".toList "75".toList 25 75 (by decide)
     (by decide) (by decide),
   (hhmmToMin_range "08:00".toList).2.2.2.2.2.1 [fillerRule] 0 { fillerRule with s := 480 }
     (by decide) (by decide)⟩

theorem set_same (rules : List UiRule) (idx : Nat) (r : UiRule)
    (h : rules[idx]? = some r) : rules.set idx r = rules := by
  apply List.ext_getElem?
  intro j
  by_cases hj : idx = j
  · subst hj
    obtain ⟨hidx, _⟩ := List.getElem?_eq_some_iff.mp h
    rw [List.getElem?_set_self hidx, h]
  · rw [List.getElem?_set_ne hj]

/-- C8: for every integer `m` in 0..1439, `minToHHMM m` is the 5-character
text "HH:MM" with `HH = floor(m/60)` and `MM = m mod 60`, each as two decimal
digits, and `hhmmToMin (minToHHMM m) = m`; so showing a rule's start or end
and entering the shown text again leaves the stored minute as it was. -/
theorem minToHHMM_roundtrip (m : Nat) (hm : m < 1440) :
    minToHHMM m =
      [digitChar (m / 60 / 10), digitChar (m / 60 % 10), ':',
       digitChar (m % 60 / 10), digitChar (m % 60 % 10)] ∧
    (minToHHMM m).length = 5 ∧
    hhmmToMin (minToHHMM m) = (m : Int) ∧
    (∀ (rules : List UiRule) (idx : Nat) (r : UiRule), rules[idx]? = some r →
      (r.s = (m : Int) → setStart rules idx (minToHHMM m) = rules) ∧
      (r.e = (m : Int) → setEnd rules idx (minToHHMM m) = rules)) := by
  have hh : m / 60 < 100 := by omega
  have hmm : m % 60 < 100 := by omega
  obtain ⟨hpadH, hparseH, hcolH⟩ := pad_two_digits (m / 60) hh
  obtain ⟨hpadM, hparseM, hcolM⟩ := pad_two_digits (m % 60) hmm
  have htext : minToHHMM m =
      [digitChar (m / 60 / 10), digitChar (m / 60 % 10), ':',
       digitChar (m % 60 / 10), digitChar (m % 60 % 10)] := by
    simp only [minToHHMM, hpadH, hpadM]
    rfl
  have hback : hhmmToMin (minToHHMM m) = (m : Int) := by
    have hsplit : split ':' (minToHHMM m) =
        [padStart 2 '0' (numToString (m / 60)), padStart 2 '0' (numToString (m % 60))] := by
      simp only [minToHHMM]
      rw [split_append_sep ':' _ _ hcolH, split_of_not_mem ':' _ hcolM]
    unfold hhmmToMin
    rw [hsplit]
    simp only [hparseH, hparseM]
    omega
  refine ⟨htext, by rw [htext]; rfl, hback, ?_⟩
  intro rules idx r hget
  constructor
  · intro hs
    unfold setStart
    rw [hget, hback, ← hs]
    exact set_same rules idx r hget
  · intro he
    unfold setEnd
    rw [hget, hback, ← he]
    exact set_same rules idx r hget

theorem minToHHMM_roundtrip_witness :
    minToHHMM 485 = [digitChar (485 / 60 / 10), digitChar (485 / 60 % 10), ':',
       digitChar (485 % 60 / 10), digitChar (485 % 60 % 10)] ∧
    (minToHHMM 485).length = 5 ∧
    hhmmToMin (minToHHMM 485) = ((485 : Nat) : Int) :=
  ⟨(minToHHMM_roundtrip 485 (by decide)).1, (minToHHMM_roundtrip 485 (by decide)).2.1,
   (minToHHMM_roundtrip 485 (by decide)).2.2.1⟩

/-! ## Weekday text -/

set_option maxRecDepth 100000 in
theorem daysToText_all : ∀ m, m < 128 →
    daysToText m = (if m = 0 then "—".toList else join ',' (namesAtSetBits m)) ∧
    toggleDays (daysToText m) = m := by
  decide

theorem dayNames_bits : ∀ i, i < 7 →
    dayShift (toLowerCase (dayNames.getD i [])) = some i ∧
    daysToText (1 <<< i) = dayNames.getD i [] ∧
    toggleDays (dayNames.getD i []) = 1 <<< i := by
  decide

/-- C5: the weekday mask uses bit `i` for weekday `i`, Mon=0..Sun=6, in both
directions. For every mask `m` in 0..127, `daysToText m` is "—" when `m` is 0
and otherwise the names at the set bit positions of `m`, in the order
Mo,Di,Mi,Do,Fr,Sa,So, joined by commas; and the parser of `toggleDays`
applied to that text gives `m` again. Name `i` alone is bit `i` both ways. -/
theorem daysToText_roundtrip (m : Nat) (hm : m < 128) :
    daysToText m = (if m = 0 then "—".toList else join ',' (namesAtSetBits m)) ∧
    namesAtSetBits m =
      ((List.range 7).filter (fun i => m.testBit i)).map (fun i => dayNames.getD i []) ∧
    dayNames = ["Mo".toList, "Di".toList, "Mi".toList, "Do".toList, "Fr".toList,
      "Sa".toList, "So".toList] ∧
    toggleDays (daysToText m) = m ∧
    (∀ i, i < 7 → dayShift (toLowerCase (dayNames.getD i [])) = some i ∧
      daysToText (1 <<< i) = dayNames.getD i [] ∧
      toggleDays (dayNames.getD i []) = 1 <<< i) :=
  ⟨(daysToText_all m hm).1, rfl, rfl, (daysToText_all m hm).2, dayNames_bits⟩

theorem daysToText_roundtrip_witness :
    daysToText 0x15 = "Mo,Mi,Fr".toList ∧ toggleDays (daysToText 0x15) = 0x15 :=
  ⟨((daysToText_roundtrip 0x15 (by decide)).1).trans (by decide),
   (daysToText_roundtrip 0x15 (by decide)).2.2.2.1⟩

end ZebraScent
